import Mathlib

/-
  Verification development for the Mutual Fund Analyser repository.

  The embedding covers:
  * the raw AMFI feed parser `process_data` (src/lambda/processor_function.py,
    duplicated as `process_daily_data` in src/lambda/lambda_function.py),
  * the structural validator `validate_raw_data` (src/lambda/lambda_function.py),
  * the keyed upsert store model used by both lambda handlers
    (funds_metadata and nav_history tables, ON CONFLICT DO UPDATE),
  * the metrics engine `calculate_returns_robust` and `calculate_sharpe_ratio`
    and the rule based scoring of `generate_fund_scorecard`
    (src/core/analysis_engine.py).

  Raw text is modelled as `List Char`, NAV values as `ℚ` (exact rationals in
  place of IEEE floats), reals `ℝ` appear where the code takes non rational
  powers and square roots, and the float NaN / NaT sentinels of pandas are
  modelled as `Option.none`.
-/

namespace MFund

/-! Python string helpers over `List Char`. -/

/-- Whitespace characters stripped by Python str.strip. -/
def pySpace (c : Char) : Bool :=
  c = ' ' || c = '\t' || c = '\n' || c = '\r' || c = '\x0b' || c = '\x0c'

/-- Drop leading Python whitespace. -/
def stripLeft : List Char → List Char
  | [] => []
  | c :: r => if pySpace c then stripLeft r else c :: r

/-- Model of Python str.strip: drop whitespace at both ends. -/
def pstrip (s : List Char) : List Char :=
  (stripLeft (stripLeft s.reverse).reverse)

/-- Model of Python str.split(sep): always returns at least one piece, the
separator is a single character. -/
def splitOn (sep : Char) : List Char → List (List Char)
  | [] => [[]]
  | c :: rest =>
    match splitOn sep rest with
    | [] => [[]]
    | h :: t => if c = sep then [] :: h :: t else (c :: h) :: t

/-- Lines of the raw feed: raw_data.strip().split(chr 10). -/
def parseLines (raw : List Char) : List (List Char) :=
  splitOn '\n' (pstrip raw)

/-! Calendar dates, as used by pandas Timestamp and DateOffset(months=n). -/

/-- Calendar date, year is the CE year, month in 1..12, day in 1..31. -/
structure Date where
  year : Nat
  month : Nat
  day : Nat
deriving DecidableEq

/-- Gregorian leap year rule. -/
def isLeapYear (y : Nat) : Bool :=
  (y % 4 = 0 && y % 100 ≠ 0) || y % 400 = 0

/-- Number of days of a month in a given year. -/
def daysInMonth (y m : Nat) : Nat :=
  if m = 2 then (if isLeapYear y then 29 else 28)
  else if m = 4 || m = 6 || m = 9 || m = 11 then 30
  else 31

/-- Lexicographic order on dates, non strict. -/
def Date.leb (a b : Date) : Bool :=
  decide (a.year < b.year) ||
    (decide (a.year = b.year) &&
      (decide (a.month < b.month) ||
        (decide (a.month = b.month) && decide (a.day ≤ b.day))))

/-- Lexicographic order on dates, strict. -/
def Date.ltb (a b : Date) : Bool :=
  decide (a.year < b.year) ||
    (decide (a.year = b.year) &&
      (decide (a.month < b.month) ||
        (decide (a.month = b.month) && decide (a.day < b.day))))

/-- Model of pandas Timestamp minus DateOffset(months = n): walk back n
calendar months and clamp the day to the length of the target month.  The
underflow branch (going back past year 0) never occurs for calendar data and
mirrors the fact that pandas would raise an out of bounds error there. -/
def subMonths (d : Date) (n : Nat) : Date :=
  let tot := d.year * 12 + (d.month - 1)
  if n ≤ tot then
    let t := tot - n
    ⟨t / 12, t % 12 + 1, min d.day (daysInMonth (t / 12) (t % 12 + 1))⟩
  else
    ⟨0, 1, min d.day 31⟩

/-! Numeric and date coercion, modelling pd.to_numeric and pd.to_datetime
with errors equal to coerce: failure is `none` (the NaN / NaT marker). -/

/-- Numeric value of a decimal digit list, `none` unless nonempty and all
digits. -/
def natOfDigits : List Char → Option Nat
  | [] => none
  | l => l.foldl (fun acc c => match acc with
      | none => none
      | some n => if c.isDigit then some (n * 10 + (c.toNat - 48)) else none)
      (some 0)

/-- Model of the numeric parser behind pd.to_numeric on a string field:
an optional sign followed by a plain decimal literal (digits, or digits
point digits, or point digits, or digits point), read as the exact
rational ip.fp, that is (ip * 10 ^ k + fp) / 10 ^ k with k fractional
digits.  Exotic spellings (exponents, infinities, embedded spaces) are
outside the model. -/
def to_numeric (cs : List Char) : Option ℚ :=
  let unsigned : List Char → Option ℚ := fun body =>
    match splitOn '.' body with
    | [ip] => (natOfDigits ip).map (fun n => (n : ℚ))
    | [ip, fp] =>
      if ip = [] ∧ fp ≠ [] then
        (natOfDigits fp).map (fun f => mkRat f (10 ^ fp.length))
      else if fp = [] ∧ ip ≠ [] then (natOfDigits ip).map (fun n => (n : ℚ))
      else match natOfDigits ip, natOfDigits fp with
        | some n, some f => some (mkRat (n * 10 ^ fp.length + f) (10 ^ fp.length))
        | _, _ => none
    | _ => none
  match cs with
  | '-' :: body => (unsigned body).map (fun q => -q)
  | '+' :: body => unsigned body
  | body => unsigned body

/-- Month number of an abbreviated English month name, case insensitive,
as matched by the strptime directive for abbreviated months. -/
def monthOfName (cs : List Char) : Option Nat :=
  match cs.map Char.toLower with
  | ['j', 'a', 'n'] => some 1
  | ['f', 'e', 'b'] => some 2
  | ['m', 'a', 'r'] => some 3
  | ['a', 'p', 'r'] => some 4
  | ['m', 'a', 'y'] => some 5
  | ['j', 'u', 'n'] => some 6
  | ['j', 'u', 'l'] => some 7
  | ['a', 'u', 'g'] => some 8
  | ['s', 'e', 'p'] => some 9
  | ['o', 'c', 't'] => some 10
  | ['n', 'o', 'v'] => some 11
  | ['d', 'e', 'c'] => some 12
  | _ => none

/-- Model of pd.to_datetime with the day dash month dash four digit year
format and errors equal to coerce: the day is one or two digits between 1
and 31, the month an abbreviated name, the year exactly four digits and at
least 1, and the combination must be a real calendar day, else `none`. -/
def to_datetime (cs : List Char) : Option Date :=
  match splitOn '-' cs with
  | [ds, ms, ys] =>
    match natOfDigits ds, monthOfName ms, natOfDigits ys with
    | some d, some m, some y =>
      if 1 ≤ ds.length ∧ ds.length ≤ 2 ∧ 1 ≤ d ∧ d ≤ 31 ∧
          ys.length = 4 ∧ 1 ≤ y ∧ d ≤ daysInMonth y m
      then some ⟨y, m, d⟩ else none
    | _, _, _ => none
  | _ => none

/-! The raw feed parser, src/lambda/processor_function.py process_data.
The identical code appears as process_daily_data in
src/lambda/lambda_function.py. -/

/-- Raw string record kept from a 6 field line: fields 0, 3, 4, 5. -/
structure RawRecord where
  scheme_code : List Char
  scheme_name : List Char
  nav : List Char
  date : List Char
deriving DecidableEq

/-- Clean record after column coercion, truncation and the positivity
filter. -/
structure NavRecord where
  scheme_code : Int
  scheme_name : List Char
  nav : ℚ
  date : Date
deriving DecidableEq

/-- Line collection loop of process_data: skip lines without a semicolon,
strip, split on semicolons, keep exactly six field lines, retain fields
0, 3, 4 and 5. -/
def rawRecords (raw : List Char) : List RawRecord :=
  (parseLines raw).filterMap (fun line =>
    if line.contains ';' then
      if (splitOn ';' (pstrip line)).length = 6 then
        some ⟨(splitOn ';' (pstrip line)).getD 0 [],
          (splitOn ';' (pstrip line)).getD 3 [],
          (splitOn ';' (pstrip line)).getD 4 [],
          (splitOn ';' (pstrip line)).getD 5 []⟩
      else none
    else none)

/-- Truncation toward zero performed by the numpy float to int cast in
astype(int). -/
def truncToInt (q : ℚ) : Int :=
  if 0 ≤ q then ⌊q⌋ else ⌈q⌉

/-- Column coercion of process_data on one row: to_numeric on scheme_code,
to_numeric on nav, to_datetime on date, then dropna removes the row when
any of the three is the NaN marker. -/
def coerceRow (r : RawRecord) : Option (ℚ × List Char × ℚ × Date) :=
  match to_numeric r.scheme_code, to_numeric r.nav, to_datetime r.date with
  | some c, some v, some d => some (c, r.scheme_name, v, d)
  | _, _, _ => none

/-- Model of process_data: collect six field semicolon lines, coerce the
typed columns and drop rows with a failed coercion, cast scheme_code to
int, keep only rows with positive nav. -/
def process_data (raw : List Char) : List NavRecord :=
  ((((rawRecords raw).filterMap coerceRow).map
      (fun r => NavRecord.mk (truncToInt r.1) r.2.1 r.2.2.1 r.2.2.2)).filter
    (fun rec => decide (0 < rec.nav)))

/-- The function process_daily_data of src/lambda/lambda_function.py is a
verbatim copy of process_data. -/
def process_daily_data (raw : List Char) : List NavRecord :=
  process_data raw

/-! The structural validator, src/lambda/lambda_function.py
validate_raw_data. -/

/-- Model of validate_raw_data: sample the first sampleSize lines, count
the lines containing a semicolon and among them those that split into
exactly six fields after stripping; fail when the sample is empty, when no
sampled line contains a semicolon, or when the conformity fraction is
below the threshold. -/
def validate_raw_data (raw : List Char) (sampleSize : Nat) (threshold : ℚ) : Bool :=
  let sample := (parseLines raw).take sampleSize
  if sample.isEmpty then false
  else
    let checked := (sample.filter (fun l => l.contains ';')).length
    let valid := (sample.filter (fun l =>
      l.contains ';' && decide ((splitOn ';' (pstrip l)).length = 6))).length
    if checked = 0 then false
    else if decide ((valid : ℚ) / (checked : ℚ) < threshold) then false
    else true

/-! The keyed store model.  A SQL table is a list of rows; the two lambda
handlers write through INSERT ... ON CONFLICT (key) DO UPDATE, modelled as
an insert or update on the row list, applied left to right over the batch
(the SELECT feeding the INSERT). -/

/-- Insert or update one keyed row: when some stored row carries the same
key, rewrite every row with that key to the new value (ON CONFLICT DO
UPDATE), otherwise append the new row. -/
def upsert {κ α : Type} [DecidableEq κ] (st : List (κ × α)) (x : κ × α) :
    List (κ × α) :=
  if st.any (fun r => decide (r.1 = x.1)) then
    st.map (fun r => if r.1 = x.1 then x else r)
  else st ++ [x]

/-- Batch upsert: fold the single row upsert over the batch in order. -/
def foldUpsert {κ α : Type} [DecidableEq κ] (st : List (κ × α))
    (b : List (κ × α)) : List (κ × α) :=
  b.foldl upsert st

/-- Rows of a table carrying a given key. -/
def filterKey {κ α : Type} [DecidableEq κ] (st : List (κ × α)) (k : κ) :
    List (κ × α) :=
  st.filter (fun r => decide (r.1 = k))

/-- Number of rows carrying a given key. -/
def countKey {κ α : Type} [DecidableEq κ] (st : List (κ × α)) (k : κ) : Nat :=
  (filterKey st k).length

/-- Last value associated to a key in a batch, the value that wins the
upsert when the key occurs several times. -/
def lastAssoc {κ α : Type} [DecidableEq κ] (b : List (κ × α)) (k : κ) :
    Option α :=
  match b with
  | [] => none
  | x :: r =>
    match lastAssoc r k with
    | some v => some v
    | none => if x.1 = k then some x.2 else none

/-- Model of DataFrame drop_duplicates on the key column, keeping the
first occurrence of each key. -/
def dropDuplicatesAux {κ α : Type} [DecidableEq κ] (seen : List κ) :
    List (κ × α) → List (κ × α)
  | [] => []
  | x :: r =>
    if x.1 ∈ seen then dropDuplicatesAux seen r
    else x :: dropDuplicatesAux (x.1 :: seen) r

/-- Deduplicate a batch by key, first occurrence wins. -/
def drop_duplicates {κ α : Type} [DecidableEq κ] (b : List (κ × α)) :
    List (κ × α) :=
  dropDuplicatesAux [] b

/-- Persisted state of the pipeline: the funds_metadata table keyed by
scheme_code and the nav_history table keyed by the pair of scheme_code and
date. -/
structure Store where
  metadata : List (Int × List Char)
  nav : List ((Int × Date) × ℚ)
deriving DecidableEq

/-- Metadata pairs derived from the clean batch, in the order of
daily_df with drop_duplicates on scheme_code. -/
def metadataPairs (df : List NavRecord) : List (Int × List Char) :=
  drop_duplicates (df.map (fun r => (r.scheme_code, r.scheme_name)))

/-- Nav rows derived from the clean batch. -/
def navRows (df : List NavRecord) : List ((Int × Date) × ℚ) :=
  df.map (fun r => ((r.scheme_code, r.date), r.nav))

/-- Load step of src/lambda/processor_function.py lambda_handler: both the
metadata table and the nav history are written with INSERT ... ON CONFLICT
DO UPDATE upserts. -/
def ingest_processor (s : Store) (df : List NavRecord) : Store :=
  { metadata := foldUpsert s.metadata (metadataPairs df)
    nav := foldUpsert s.nav (navRows df) }

/-- Load step of src/lambda/lambda_function.py lambda_handler: the
metadata table is wholesale replaced (to_sql with if_exists replace) while
the nav history is upserted. -/
def ingest_fetcher (s : Store) (df : List NavRecord) : Store :=
  { metadata := metadataPairs df
    nav := foldUpsert s.nav (navRows df) }

/-- Outcome of one pipeline run, mirroring the handler return values and
the 500 path taken when validation raises. -/
inductive PipelineResult where
  | ok : PipelineResult
  | okNoData : PipelineResult
  | err : PipelineResult
deriving DecidableEq

/-- Control flow of src/lambda/lambda_function.py lambda_handler with
respect to the persisted store: validate the raw text (with the default
sample size 100 and threshold 0.9); on failure the raised ValueError is
caught by the outer handler and the run ends with a 500 without touching
the store; otherwise process the data, exit successfully on an empty
frame, else load it. -/
def lambda_handler (s : Store) (raw : List Char) : Store × PipelineResult :=
  if validate_raw_data raw 100 (9 / 10) = false then (s, .err)
  else
    let df := process_daily_data raw
    if df.isEmpty then (s, .okNoData)
    else (ingest_fetcher s df, .ok)

/-! The metrics engine, src/core/analysis_engine.py. -/

/-- Annual risk free rate, src/config.py. -/
def RISK_FREE_RATE : ℚ := 7 / 100

/-- Insertion step of the date sort. -/
def insertByDate (x : Date × ℚ) : List (Date × ℚ) → List (Date × ℚ)
  | [] => [x]
  | y :: r => if Date.leb x.1 y.1 then x :: y :: r else y :: insertByDate x r

/-- Model of nav_series.sort_index(): sort the series ascending by date. -/
def sortByDate (l : List (Date × ℚ)) : List (Date × ℚ) :=
  l.foldr insertByDate []

/-- Strictly ascending by date: the sortedness and uniqueness invariant a
series read from the keyed store satisfies. -/
def sortedByDate : List (Date × ℚ) → Bool
  | [] => true
  | [_] => true
  | x :: y :: r => Date.ltb x.1 y.1 && sortedByDate (y :: r)

/-- Period table of calculate_returns_robust. -/
def periods : List (String × Nat) :=
  [("1 Month", 1), ("6 Months", 6), ("1 Year", 12), ("3 Years", 36)]

/-- Dictionary lookup for string keyed result maps. -/
def lookupStr {α : Type} (l : List (String × α)) (k : String) : Option α :=
  match l with
  | [] => none
  | x :: r => if x.1 = k then some x.2 else lookupStr r k

/-- Model of calculate_returns_robust: sort the series by date, return the
empty dictionary when it is empty, otherwise compute for each period the
latest observation dated at or before the latest date minus the period in
months; no such observation or a past nav at most zero gives the NaN
marker, otherwise the total return is annualized through a real power.
The values are reals since the exponent 1 / num_years is not an integer
for the three year period. -/
noncomputable def calculate_returns_robust (series : List (Date × ℚ)) :
    List (String × Option ℝ) :=
  match (sortByDate series).getLast? with
  | none => []
  | some latest =>
    periods.map (fun p =>
      match ((sortByDate series).filter
          (fun x => Date.leb x.1 (subMonths latest.1 p.2))).getLast? with
      | none => (p.1, none)
      | some past =>
        if past.2 ≤ 0 then (p.1, none)
        else
          (p.1, some (((1 + (latest.2 / past.2 - 1) : ℚ) : ℝ) ^
            (((1 / ((p.2 : ℚ) / 12) : ℚ)) : ℝ) - 1)))

/-- Model of Series.pct_change: the first entry is the NaN marker, entry i
is the ratio of consecutive values minus one. -/
def pctAux (prev : ℚ) : List ℚ → List (Option ℚ)
  | [] => []
  | y :: r => some (y / prev - 1) :: pctAux y r

/-- Percentage change of a series, with a leading NaN marker. -/
def pct_change : List ℚ → List (Option ℚ)
  | [] => []
  | x :: r => none :: pctAux x r

/-- Model of Series.dropna: keep the defined entries. -/
def dropna (l : List (Option ℚ)) : List ℚ :=
  l.filterMap id

/-- Arithmetic mean of a list of rationals (zero on the empty list, a case
never reached under the length guard of the Sharpe computation). -/
def listMean (l : List ℚ) : ℚ :=
  l.sum / (l.length : ℚ)

/-- Sample variance with one delta degree of freedom, the square of the
pandas Series.std default. -/
def sampleVar (l : List ℚ) : ℚ :=
  ((l.map (fun x => (x - listMean l) ^ 2)).sum) / ((l.length : ℚ) - 1)

/-- Model of calculate_sharpe_ratio: NaN for fewer than 252 observations;
compute daily percentage returns, and when their standard deviation is
zero return exactly zero; otherwise subtract the daily risk free rate and
return the mean excess return over the standard deviation, scaled by the
square root of 252.  The float NaN result is `none`. -/
noncomputable def calculate_sharpe_ratio (navs : List ℚ) : Option ℝ :=
  if navs.length < 252 then none
  else
    if Real.sqrt ((sampleVar (dropna (pct_change navs)) : ℚ) : ℝ) = 0 then
      some 0
    else
      some (((listMean ((dropna (pct_change navs)).map
          (fun r => r - RISK_FREE_RATE / 252)) : ℚ) : ℝ) /
        Real.sqrt ((sampleVar (dropna (pct_change navs)) : ℚ) : ℝ) *
        Real.sqrt 252)

/-! The rule based scoring of generate_fund_scorecard. -/

/-- Model of the Python comparison returns.get(key, 0) > t inside the
scoring block: a missing key compares the default 0 against the
threshold, a stored NaN marker compares false, and a stored value
compares normally. -/
noncomputable def dict_get_gt (rets : List (String × Option ℝ)) (key : String)
    (t : ℝ) : Bool :=
  match lookupStr rets key with
  | none => decide ((0 : ℝ) > t)
  | some none => false
  | some (some v) => decide (v > t)

/-- Performance component of the scorecard: the one year bucket plus the
three year bucket, with the thresholds of the source. -/
noncomputable def perf_score (rets : List (String × Option ℝ)) : ℤ :=
  (if dict_get_gt rets ("1 Year") ((20 : ℝ) / 100) then 25
   else if dict_get_gt rets ("1 Year") ((10 : ℝ) / 100) then 10 else 0) +
  (if dict_get_gt rets ("3 Years") ((15 : ℝ) / 100) then 25
   else if dict_get_gt rets ("3 Years") ((10 : ℝ) / 100) then 15 else 0)

/-- Risk adjusted component of the scorecard: the Sharpe buckets, where
pd.notna fails on the NaN marker and every comparison with it is false. -/
noncomputable def risk_score (sharpe : Option ℝ) : ℤ :=
  match sharpe with
  | none => 0
  | some v =>
    if v > 1 then 50
    else if v > (75 : ℝ) / 100 then 35
    else if v > (5 : ℝ) / 10 then 20 else 0

/-- Final score: the sum of the two components. -/
noncomputable def final_score (rets : List (String × Option ℝ))
    (sharpe : Option ℝ) : ℤ :=
  perf_score rets + risk_score sharpe

/-! Further definitions used by the verification: the batch value
rewrite, spec side reference functions, and concrete example data. -/

/-- Value rewriting function of a batch: a row whose key occurs in the
batch receives the last batch value for it. -/
def overrideWith {κ α : Type} [DecidableEq κ] (b : List (κ × α))
    (row : κ × α) : κ × α :=
  match lastAssoc b row.1 with
  | some v => (row.1, v)
  | none => row

/-- Nonempty all digit field. -/
def digitsOnly (b : List Char) : Bool :=
  !b.isEmpty && b.all Char.isDigit

/-- Modelled from the spec wording of the parser contract: a field
coerces to an integer when it is an optionally signed plain integer
literal. -/
def spec_int_coercible (cs : List Char) : Bool :=
  match cs with
  | '-' :: b => digitsOnly b
  | '+' :: b => digitsOnly b
  | b => digitsOnly b

/-- Spec side single line contract of the parser: a line yields exactly
one record when it contains a semicolon, splits into exactly six fields,
its field 0 coerces numerically, its field 4 coerces to a positive value
and its field 5 is a calendar date; the record keeps field 3 as the name,
truncates field 0 to an integer and any other line yields nothing. -/
def lineRecord (line : List Char) : Option NavRecord :=
  if line.contains ';' then
    if (splitOn ';' (pstrip line)).length = 6 then
      match to_numeric ((splitOn ';' (pstrip line)).getD 0 []),
          to_numeric ((splitOn ';' (pstrip line)).getD 4 []),
          to_datetime ((splitOn ';' (pstrip line)).getD 5 []) with
      | some c, some v, some d =>
        if 0 < v then
          some (NavRecord.mk (truncToInt c)
            ((splitOn ';' (pstrip line)).getD 3 []) v d)
        else none
      | _, _, _ => none
    else none
  else none

/-- Spec side performance bucket: an undefined return contributes zero,
a defined one is compared against the thresholds of the spec. -/
noncomputable def spec_perf_bucket (r1 r3 : Option ℝ) : ℤ :=
  (match r1 with
   | none => 0
   | some v =>
     if v > (20 : ℝ) / 100 then 25
     else if v > (10 : ℝ) / 100 then 10 else 0) +
  (match r3 with
   | none => 0
   | some v =>
     if v > (15 : ℝ) / 100 then 25
     else if v > (10 : ℝ) / 100 then 15 else 0)

/-- Spec side risk bucket: an undefined Sharpe ratio contributes zero. -/
noncomputable def spec_risk_bucket (s : Option ℝ) : ℤ :=
  match s with
  | none => 0
  | some v =>
    if v > 1 then 50
    else if v > (75 : ℝ) / 100 then 35
    else if v > (5 : ℝ) / 10 then 20 else 0

/-- Joining lines with the newline separator, used to build concrete raw
feeds. -/
def joinLines : List (List Char) → List Char
  | [] => []
  | [l] => l
  | l :: ls => l ++ '\n' :: joinLines ls

/-- A well formed six field feed line. -/
def exGood : List Char := ("10001;I1;I2;Fund A;10.5;01-Jan-2024").data

/-- A malformed feed line with seven fields. -/
def exBad : List Char := ("1;2;3;4;5;6;7").data

/-- A header line without any semicolon. -/
def exHeader : List Char := ("Open Ended Schemes").data

/-- Sample of one hundred lines: 85 contain a semicolon, 70 of them split
into six fields, conformity 70 / 85. -/
def exDriftLines : List (List Char) :=
  List.replicate 70 exGood ++ List.replicate 15 exBad ++
    List.replicate 15 exHeader

/-- Raw feed text of the drifted sample. -/
def exDriftRaw : List Char := joinLines exDriftLines

/-- Sample of one hundred semicolon lines of which 95 split into six
fields, conformity 95 / 100. -/
def exCleanLines : List (List Char) :=
  List.replicate 95 exGood ++ List.replicate 5 exBad

/-- Raw feed text of the clean sample. -/
def exCleanRaw : List Char := joinLines exCleanLines

/-! Lemmas about the keyed upsert store. -/

variable {κ α : Type} [DecidableEq κ]

/-- Unfolding step of the batch upsert. -/
theorem foldUpsert_cons (st : List (κ × α)) (x : κ × α) (b : List (κ × α)) :
    foldUpsert st (x :: b) = foldUpsert (upsert st x) b := rfl

/-- Unfolding step of the batch upsert on the empty batch. -/
theorem foldUpsert_nil (st : List (κ × α)) : foldUpsert st [] = st := rfl

/-- The conflict test of the upsert detects exactly the keys already
stored. -/
theorem any_key_iff (st : List (κ × α)) (k : κ) :
    (st.any fun r => decide (r.1 = k)) = true ↔ k ∈ st.map Prod.fst := by
  simp [List.any_eq_true, List.mem_map]

/-- On a conflicting key the upsert rewrites the stored rows. -/
theorem upsert_of_mem {st : List (κ × α)} {x : κ × α}
    (h : x.1 ∈ st.map Prod.fst) :
    upsert st x = st.map fun r => if r.1 = x.1 then x else r := by
  unfold upsert
  rw [if_pos ((any_key_iff st x.1).mpr h)]

/-- On a fresh key the upsert appends the row. -/
theorem upsert_of_not_mem {st : List (κ × α)} {x : κ × α}
    (h : x.1 ∉ st.map Prod.fst) :
    upsert st x = st ++ [x] := by
  unfold upsert
  rw [if_neg (fun hc => h ((any_key_iff st x.1).mp hc))]

/-- Rewriting the rows of a conflicting key does not change the stored
keys. -/
theorem map_fst_replace (st : List (κ × α)) (x : κ × α) :
    ((st.map fun r => if r.1 = x.1 then x else r).map Prod.fst) =
      st.map Prod.fst := by
  rw [List.map_map]
  apply List.map_congr_left
  intro r _
  by_cases h : r.1 = x.1 <;> simp [h]

/-- Keys after an upsert: unchanged on conflict, the new key appended
otherwise. -/
theorem map_fst_upsert (st : List (κ × α)) (x : κ × α) :
    (upsert st x).map Prod.fst =
      (if x.1 ∈ st.map Prod.fst then st.map Prod.fst
       else st.map Prod.fst ++ [x.1]) := by
  by_cases h : x.1 ∈ st.map Prod.fst
  · rw [upsert_of_mem h, if_pos h, map_fst_replace]
  · rw [upsert_of_not_mem h, if_neg h, List.map_append]; rfl

/-- A single upsert preserves key uniqueness. -/
theorem nodup_upsert {st : List (κ × α)} {x : κ × α}
    (h : (st.map Prod.fst).Nodup) :
    ((upsert st x).map Prod.fst).Nodup := by
  rw [map_fst_upsert]
  split
  · exact h
  · next hx =>
      have hdisj : (st.map Prod.fst).Disjoint [x.1] := by
        intro a ha hax
        rw [List.mem_singleton] at hax
        subst hax
        exact hx ha
      exact (List.nodup_append).mpr ⟨h, List.nodup_singleton _, hdisj⟩

/-- A batch upsert preserves key uniqueness: after any ingestion the store
still holds at most one row per key. -/
theorem nodup_foldUpsert (b : List (κ × α)) (st : List (κ × α))
    (h : (st.map Prod.fst).Nodup) :
    ((foldUpsert st b).map Prod.fst).Nodup := by
  induction b generalizing st with
  | nil => exact h
  | cons x r ih => exact ih _ (nodup_upsert h)

/-- Rewriting rows of a foreign key does not touch the rows of a key. -/
theorem filter_replace_ne (st : List (κ × α)) (x : κ × α) (k : κ)
    (h : x.1 ≠ k) :
    ((st.map fun r => if r.1 = x.1 then x else r).filter
        fun r => decide (r.1 = k)) =
      st.filter fun r => decide (r.1 = k) := by
  induction st with
  | nil => rfl
  | cons r st ih =>
      simp only [List.map_cons, List.filter_cons]
      by_cases hr : r.1 = x.1
      · rw [if_pos hr]
        have h2 : r.1 ≠ k := by rw [hr]; exact h
        simp [h, h2, ih]
      · rw [if_neg hr]
        by_cases hk : r.1 = k
        · simp [hk, ih]
        · simp [hk, ih]

/-- Rewriting the rows of a key rewrites exactly its filtered rows. -/
theorem filter_replace_eq (st : List (κ × α)) (k : κ) (v : α) :
    ((st.map fun r => if r.1 = k then (k, v) else r).filter
        fun r => decide (r.1 = k)) =
      (st.filter fun r => decide (r.1 = k)).map fun _ => (k, v) := by
  induction st with
  | nil => rfl
  | cons r st ih =>
      simp only [List.map_cons, List.filter_cons]
      by_cases hr : r.1 = k
      · simp [hr, ih]
      · simp [hr, ih]

/-- An upsert with a different key leaves the rows of a key untouched. -/
theorem filterKey_upsert_ne (st : List (κ × α)) (x : κ × α) (k : κ)
    (h : x.1 ≠ k) :
    filterKey (upsert st x) k = filterKey st k := by
  unfold upsert filterKey
  split
  · exact filter_replace_ne st x k h
  · rw [List.filter_append]
    have hx : List.filter (fun r => decide (r.1 = k)) [x] = [] := by
      simp [h]
    rw [hx, List.append_nil]

/-- Upserting a key stored on exactly one row rewrites that row in
place: the history length for the key stays one and the value is the new
one. -/
theorem filterKey_upsert_one {st : List (κ × α)} {k : κ} {w : α} (v : α)
    (h : filterKey st k = [(k, w)]) :
    filterKey (upsert st (k, v)) k = [(k, v)] := by
  have hmem : k ∈ st.map Prod.fst := by
    have hw : (k, w) ∈ filterKey st k := by
      rw [h]; exact List.mem_singleton.mpr rfl
    exact List.mem_map.mpr ⟨(k, w), (List.mem_filter.mp hw).1, rfl⟩
  rw [upsert_of_mem (x := (k, v)) hmem]
  unfold filterKey at h ⊢
  rw [filter_replace_eq st k v, h]
  rfl

/-- Last batch value of a key, unfolded on a batch head. -/
theorem lastAssoc_cons (x : κ × α) (r : List (κ × α)) (k : κ) :
    lastAssoc (x :: r) k =
      (match lastAssoc r k with
       | some v => some v
       | none => if x.1 = k then some x.2 else none) := rfl

/-- The key of an upserted row is stored afterwards. -/
theorem mem_keys_upsert_self (st : List (κ × α)) (x : κ × α) :
    x.1 ∈ (upsert st x).map Prod.fst := by
  rw [map_fst_upsert]
  split
  · next h => exact h
  · exact List.mem_append_right _ (List.mem_singleton.mpr rfl)

/-- Stored keys survive an upsert. -/
theorem keys_subset_upsert (st : List (κ × α)) (x : κ × α) :
    st.map Prod.fst ⊆ (upsert st x).map Prod.fst := by
  rw [map_fst_upsert]
  split
  · exact fun a ha => ha
  · exact fun a ha => List.mem_append_left _ ha

/-- Stored keys survive a batch upsert. -/
theorem keys_subset_foldUpsert (b : List (κ × α)) (st : List (κ × α)) :
    st.map Prod.fst ⊆ (foldUpsert st b).map Prod.fst := by
  induction b generalizing st with
  | nil => exact fun a ha => ha
  | cons x r ih =>
      exact fun a ha => ih (upsert st x) (keys_subset_upsert st x ha)

/-- Every key of the batch is stored after the batch upsert. -/
theorem batch_keys_mem (b : List (κ × α)) (st : List (κ × α)) :
    ∀ x ∈ b, x.1 ∈ (foldUpsert st b).map Prod.fst := by
  induction b generalizing st with
  | nil => intro x hx; cases hx
  | cons y r ih =>
      intro x hx
      rcases List.mem_cons.mp hx with hxy | hxr
      · subst hxy
        exact keys_subset_foldUpsert r (upsert st x)
          (mem_keys_upsert_self st x)
      · exact ih (upsert st y) x hxr

/-- Composing the single row rewrite with the batch rewrite of the tail
gives the batch rewrite of the whole batch. -/
theorem override_cons (x : κ × α) (r : List (κ × α)) (row : κ × α) :
    overrideWith r (if row.1 = x.1 then x else row) =
      overrideWith (x :: r) row := by
  have hfst : (if row.1 = x.1 then x else row).1 = row.1 := by
    by_cases h : row.1 = x.1
    · rw [if_pos h, h]
    · rw [if_neg h]
  unfold overrideWith
  rw [lastAssoc_cons, hfst]
  cases hl : lastAssoc r row.1 with
  | some v => rfl
  | none =>
      by_cases h : row.1 = x.1
      · rw [if_pos h, if_pos h.symm]
        rw [h]
      · have hne : ¬(x.1 = row.1) := fun hc => h hc.symm
        rw [if_neg h, if_neg hne]

/-- When every batch key is already stored, the batch upsert is exactly
the pointwise value rewrite: no row is added or removed. -/
theorem foldUpsert_all_mem (b : List (κ × α)) (st : List (κ × α))
    (h : ∀ x ∈ b, x.1 ∈ st.map Prod.fst) :
    foldUpsert st b = st.map (overrideWith b) := by
  induction b generalizing st with
  | nil =>
      rw [foldUpsert_nil]
      calc st = st.map (fun r => r) := (List.map_id st).symm
        _ = st.map (overrideWith []) := List.map_congr_left fun r _ => rfl
  | cons x r ih =>
      rw [foldUpsert_cons,
        upsert_of_mem (h x (List.mem_cons_self x r))]
      have hkeys : ∀ y ∈ r, y.1 ∈
          ((st.map fun q => if q.1 = x.1 then x else q).map Prod.fst) := by
        rw [map_fst_replace]
        exact fun y hy => h y (List.mem_cons_of_mem x hy)
      rw [ih _ hkeys, List.map_map]
      apply List.map_congr_left
      intro row _
      exact override_cons x r row

/-- Membership in an upsert with a different key comes from the store. -/
theorem mem_upsert_of_ne {st : List (κ × α)} {x row : κ × α}
    (hrow : row ∈ upsert st x) (h : row.1 ≠ x.1) : row ∈ st := by
  unfold upsert at hrow
  split at hrow
  · rcases List.mem_map.mp hrow with ⟨r, hr, hrep⟩
    by_cases hr1 : r.1 = x.1
    · rw [if_pos hr1] at hrep
      subst hrep
      exact absurd rfl h
    · rw [if_neg hr1] at hrep
      subst hrep
      exact hr
  · rcases List.mem_append.mp hrow with hst | hnew
    · exact hst
    · have hx := List.mem_singleton.mp hnew
      subst hx
      exact absurd rfl h

/-- A stored row carrying the upserted key is the upserted row. -/
theorem mem_upsert_of_eq {st : List (κ × α)} {x row : κ × α}
    (hrow : row ∈ upsert st x) (h : row.1 = x.1) : row = x := by
  unfold upsert at hrow
  split at hrow
  · rcases List.mem_map.mp hrow with ⟨r, hr, hrep⟩
    by_cases hr1 : r.1 = x.1
    · rw [if_pos hr1] at hrep
      exact hrep.symm
    · rw [if_neg hr1] at hrep
      subst hrep
      exact absurd h hr1
  · next hany =>
      rcases List.mem_append.mp hrow with hst | hnew
      · exfalso
        apply hany
        rw [List.any_eq_true]
        exact ⟨row, hst, decide_eq_true h⟩
      · exact List.mem_singleton.mp hnew

/-- Rows whose key never occurs in the batch were already stored before
the batch upsert. -/
theorem mem_of_lastAssoc_none (b : List (κ × α)) (st : List (κ × α))
    {k : κ} (hb : lastAssoc b k = none) :
    ∀ row ∈ foldUpsert st b, row.1 = k → row ∈ st := by
  induction b generalizing st with
  | nil => intro row hrow _; exact hrow
  | cons x r ih =>
      intro row hrow hk
      have hsplit : lastAssoc r k = none ∧ x.1 ≠ k := by
        rw [lastAssoc_cons] at hb
        cases hl : lastAssoc r k with
        | some v => rw [hl] at hb; cases hb
        | none =>
            rw [hl] at hb
            refine ⟨rfl, fun hc => ?_⟩
            rw [if_pos hc] at hb
            cases hb
      have hmem : row ∈ upsert st x :=
        ih (upsert st x) hsplit.1 row hrow hk
      refine mem_upsert_of_ne hmem ?_
      intro hc
      rw [hc] at hk
      exact hsplit.2 hk

/-- After a batch upsert, every stored row whose key occurs in the batch
carries the last batch value: last write wins. -/
theorem foldUpsert_value (b : List (κ × α)) (st : List (κ × α)) :
    ∀ row ∈ foldUpsert st b, ∀ v, lastAssoc b row.1 = some v →
      row.2 = v := by
  induction b generalizing st with
  | nil => intro row _ v hv; cases hv
  | cons x r ih =>
      intro row hrow v hv
      rw [lastAssoc_cons] at hv
      cases hl : lastAssoc r row.1 with
      | some w =>
          rw [hl] at hv
          have hw : w = v := by simpa using hv
          subst hw
          exact ih (upsert st x) row hrow w hl
      | none =>
          rw [hl] at hv
          by_cases hx : x.1 = row.1
          · rw [if_pos hx] at hv
            cases hv
            have hmem : row ∈ upsert st x :=
              mem_of_lastAssoc_none r (upsert st x) hl row hrow rfl
            rw [mem_upsert_of_eq hmem hx.symm]
          · rw [if_neg hx] at hv
            cases hv

/-- Replaying the same batch on the resulting store changes nothing: the
batch upsert is idempotent. -/
theorem foldUpsert_idem (st : List (κ × α)) (b : List (κ × α)) :
    foldUpsert (foldUpsert st b) b = foldUpsert st b := by
  rw [foldUpsert_all_mem b (foldUpsert st b) (batch_keys_mem b st)]
  have hpt : ∀ row ∈ foldUpsert st b, overrideWith b row = row := by
    intro row hrow
    unfold overrideWith
    cases hl : lastAssoc b row.1 with
    | none => rfl
    | some v =>
        have hval := foldUpsert_value b st row hrow v hl
        rw [← hval]
  calc (foldUpsert st b).map (overrideWith b)
      = (foldUpsert st b).map (fun r => r) := List.map_congr_left hpt
    _ = foldUpsert st b := List.map_id _

/-- Deduplicated rows come from the original batch. -/
theorem mem_dropDuplicatesAux {row : κ × α} :
    ∀ (seen : List κ) (b : List (κ × α)),
      row ∈ dropDuplicatesAux seen b → row ∈ b := by
  intro seen b
  induction b generalizing seen with
  | nil => intro h; exact absurd h (List.not_mem_nil row)
  | cons x r ih =>
      intro h
      unfold dropDuplicatesAux at h
      split at h
      · exact List.mem_cons_of_mem x (ih _ h)
      · rcases List.mem_cons.mp h with hx | hr
        · exact hx ▸ List.mem_cons_self x r
        · exact List.mem_cons_of_mem x (ih _ hr)

/-- Keys of the metadata pairs of a batch are scheme codes of the
batch. -/
theorem keys_metadataPairs (df : List NavRecord) :
    (metadataPairs df).map Prod.fst ⊆ df.map NavRecord.scheme_code := by
  intro a ha
  rcases List.mem_map.mp ha with ⟨row, hrow, hfst⟩
  have hmem : row ∈ df.map fun r => (r.scheme_code, r.scheme_name) :=
    mem_dropDuplicatesAux [] _ hrow
  rcases List.mem_map.mp hmem with ⟨r, hr, hpair⟩
  refine List.mem_map.mpr ⟨r, hr, ?_⟩
  rw [← hfst, ← hpair]

/-- Keys outside the batch keep their exact rows across a batch
upsert. -/
theorem filterKey_foldUpsert_not_mem {b : List (κ × α)}
    {st : List (κ × α)} {k : κ} (hk : k ∉ b.map Prod.fst) :
    filterKey (foldUpsert st b) k = filterKey st k := by
  induction b generalizing st with
  | nil => rfl
  | cons x r ih =>
      have hx : x.1 ≠ k := by
        intro hc
        exact hk (List.mem_map.mpr ⟨x, List.mem_cons_self x r, hc⟩)
      have hr : k ∉ r.map Prod.fst := by
        intro hc
        rcases List.mem_map.mp hc with ⟨y, hy, hyk⟩
        exact hk (List.mem_map.mpr ⟨y, List.mem_cons_of_mem x hy, hyk⟩)
      rw [foldUpsert_cons, ih hr, filterKey_upsert_ne st x k hx]

/-- C1: a persisted NAV store (one having at most one row per key, as the
primary key of nav_history enforces) still has at most one row per
composite key after ingesting any batch through the ON CONFLICT DO UPDATE
upsert, and ingesting a record whose key is already stored with a
different nav rewrites the stored row in place: the stored value becomes
the new nav and the history length for that key stays one. -/
theorem C1_nav_upsert_unique (st b : List ((Int × Date) × ℚ))
    (k : Int × Date) (v w : ℚ)
    (hinv : (st.map Prod.fst).Nodup) :
    ((foldUpsert st b).map Prod.fst).Nodup ∧
      (filterKey st k = [(k, w)] → w ≠ v →
        filterKey (foldUpsert st [(k, v)]) k = [(k, v)] ∧
          countKey (foldUpsert st [(k, v)]) k = 1) := by
  refine ⟨nodup_foldUpsert b st hinv, fun hone _ => ?_⟩
  have hup : filterKey (upsert st (k, v)) k = [(k, v)] :=
    filterKey_upsert_one v hone
  have hfold : foldUpsert st [(k, v)] = upsert st (k, v) := rfl
  rw [hfold]
  exact ⟨hup, by rw [countKey, hup]; rfl⟩

/-- Witness for C1 at a concrete store and batch. -/
theorem C1_nav_upsert_unique_witness :
    ((foldUpsert [(((1 : Int), Date.mk 2024 1 1), (10 : ℚ))]
        [(((2 : Int), Date.mk 2024 1 2), (5 : ℚ))]).map Prod.fst).Nodup ∧
      (filterKey (foldUpsert [(((1 : Int), Date.mk 2024 1 1), (10 : ℚ))]
          [(((1 : Int), Date.mk 2024 1 1), (12 : ℚ))])
          ((1 : Int), Date.mk 2024 1 1) =
        [(((1 : Int), Date.mk 2024 1 1), (12 : ℚ))] ∧
        countKey (foldUpsert [(((1 : Int), Date.mk 2024 1 1), (10 : ℚ))]
          [(((1 : Int), Date.mk 2024 1 1), (12 : ℚ))])
          ((1 : Int), Date.mk 2024 1 1) = 1) :=
  ⟨(C1_nav_upsert_unique [(((1 : Int), Date.mk 2024 1 1), (10 : ℚ))]
      [(((2 : Int), Date.mk 2024 1 2), (5 : ℚ))]
      ((1 : Int), Date.mk 2024 1 1) 12 10 (by decide)).1,
    (C1_nav_upsert_unique [(((1 : Int), Date.mk 2024 1 1), (10 : ℚ))]
      [(((2 : Int), Date.mk 2024 1 2), (5 : ℚ))]
      ((1 : Int), Date.mk 2024 1 1) 12 10 (by decide)).2
      (by decide) (by decide)⟩

/-- C7: replaying the exact same clean batch a second time leaves the
persisted store (metadata table and NAV history) in the very state that
one ingestion produces, for both the processor handler (metadata
upserted) and the fetcher handler (metadata wholesale replaced). -/
theorem C7_ingest_idempotent (s : Store) (df : List NavRecord) :
    ingest_processor (ingest_processor s df) df = ingest_processor s df ∧
      ingest_fetcher (ingest_fetcher s df) df = ingest_fetcher s df := by
  constructor
  · show Store.mk
        (foldUpsert (foldUpsert s.metadata (metadataPairs df)) (metadataPairs df))
        (foldUpsert (foldUpsert s.nav (navRows df)) (navRows df)) = _
    rw [foldUpsert_idem, foldUpsert_idem]
    rfl
  · show Store.mk (metadataPairs df)
        (foldUpsert (foldUpsert s.nav (navRows df)) (navRows df)) = _
    rw [foldUpsert_idem]
    rfl

/-- C8: when the structural validator rejects the raw text, the fetcher
pipeline run ends in the error path without performing any write: the
persisted store, metadata and NAV history alike, is returned exactly
unchanged. -/
theorem C8_abort_on_validation_failure (s : Store) (raw : List Char)
    (h : validate_raw_data raw 100 (9 / 10) = false) :
    lambda_handler s raw = (s, PipelineResult.err) := by
  unfold lambda_handler
  rw [if_pos h]

/-- Witness for C8: a raw text with no semicolon fails validation and the
handler hands back the original store untouched. -/
theorem C8_abort_on_validation_failure_witness :
    lambda_handler (Store.mk [((42 : Int), ("Old Fund").data)] [])
        ("no semicolons here").data =
      (Store.mk [((42 : Int), ("Old Fund").data)] [], PipelineResult.err) :=
  C8_abort_on_validation_failure
    (Store.mk [((42 : Int), ("Old Fund").data)] [])
    ("no semicolons here").data (by decide)

/-- C9 counterexample: the claim asserts that the metadata write of the
ingestion pipeline preserves funds absent from the batch, citing both
handlers; the fetcher handler of lambda_function.py instead replaces the
whole metadata table (to_sql with if_exists replace), so a store knowing
fund 42 loses it after ingesting a batch that only mentions fund 7. -/
theorem C9_metadata_replace_counterexample :
    filterKey (ingest_fetcher (Store.mk [((42 : Int), ("Old Fund").data)] [])
        [NavRecord.mk 7 ("New Fund").data 10 (Date.mk 2024 1 2)]).metadata
        (42 : Int) = [] ∧
      filterKey ([((42 : Int), ("Old Fund").data)] : List (Int × List Char))
        (42 : Int) = [((42 : Int), ("Old Fund").data)] := by
  constructor
  · rfl
  · rfl

/-- C9 amended: the processor handler metadata write is an insert or
update keyed by scheme_code: every fund whose code is absent from the
batch keeps exactly its stored rows, hence its last known name, and only
codes present in the batch are inserted or updated. -/
theorem C9_metadata_upsert_frame (s : Store) (df : List NavRecord)
    (k : Int) (hk : k ∉ df.map NavRecord.scheme_code) :
    filterKey (ingest_processor s df).metadata k =
      filterKey s.metadata k := by
  have hkeys : k ∉ (metadataPairs df).map Prod.fst := by
    intro hc
    exact hk (keys_metadataPairs df hc)
  exact filterKey_foldUpsert_not_mem hkeys

/-- Witness for C9 amended: fund 42 keeps its name through a processor
ingestion of a batch that only mentions fund 7. -/
theorem C9_metadata_upsert_frame_witness :
    filterKey (ingest_processor (Store.mk [((42 : Int), ("Old Fund").data)] [])
        [NavRecord.mk 7 ("New Fund").data 10 (Date.mk 2024 1 2)]).metadata
        (42 : Int) =
      filterKey ([((42 : Int), ("Old Fund").data)] : List (Int × List Char))
        (42 : Int) :=
  C9_metadata_upsert_frame (Store.mk [((42 : Int), ("Old Fund").data)] [])
    [NavRecord.mk 7 ("New Fund").data 10 (Date.mk 2024 1 2)] 42 (by decide)

/-! Lemmas about line splitting, used by the validator claims. -/

/-- Splitting always yields at least one piece, as in Python. -/
theorem splitOn_ne_nil (sep : Char) (l : List Char) : splitOn sep l ≠ [] := by
  induction l with
  | nil => simp [splitOn]
  | cons c rest ih =>
      unfold splitOn
      cases hs : splitOn sep rest with
      | nil => simp
      | cons h t => by_cases hc : c = sep <;> simp [hc]

/-- The line list of a raw feed is never empty. -/
theorem parseLines_ne_nil (raw : List Char) : parseLines raw ≠ [] :=
  splitOn_ne_nil _ _

/-- Unfolding equation of the split on a nonempty list. -/
theorem splitOn_cons (sep c : Char) (rest : List Char) :
    splitOn sep (c :: rest) =
      (match splitOn sep rest with
       | [] => [[]]
       | h :: t => if c = sep then [] :: h :: t else (c :: h) :: t) := rfl

/-- A piece without the separator splits into itself alone. -/
theorem splitOn_no_sep {sep : Char} {l : List Char}
    (h : l.contains sep = false) : splitOn sep l = [l] := by
  induction l with
  | nil => rfl
  | cons c r ih =>
      simp only [List.contains_cons, Bool.or_eq_false_iff,
        beq_eq_false_iff_ne] at h
      have hc : ¬(c = sep) := fun hcc => h.1 hcc.symm
      rw [splitOn_cons, ih h.2]
      simp [hc]

/-- Splitting after a separator free prefix peels that prefix off. -/
theorem splitOn_append_sep (sep : Char) (l1 l2 : List Char)
    (h : l1.contains sep = false) :
    splitOn sep (l1 ++ sep :: l2) = l1 :: splitOn sep l2 := by
  induction l1 with
  | nil =>
      rw [List.nil_append, splitOn_cons]
      cases hs : splitOn sep l2 with
      | nil => exact absurd hs (splitOn_ne_nil sep l2)
      | cons h t => simp
  | cons c r ih =>
      simp only [List.contains_cons, Bool.or_eq_false_iff,
        beq_eq_false_iff_ne] at h
      have hc : ¬(c = sep) := fun hcc => h.1 hcc.symm
      rw [List.cons_append, splitOn_cons, ih h.2]
      simp [hc]

/-- Splitting a newline join of newline free lines recovers the lines. -/
theorem splitOn_joinLines (ls : List (List Char)) (hne : ls ≠ [])
    (h : ∀ l ∈ ls, l.contains '\n' = false) :
    splitOn '\n' (joinLines ls) = ls := by
  induction ls with
  | nil => exact absurd rfl hne
  | cons l ls ih =>
      cases ls with
      | nil =>
          show splitOn '\n' (joinLines [l]) = [l]
          exact splitOn_no_sep (h l (List.mem_cons_self l []))
      | cons l2 ls2 =>
          have hj : joinLines (l :: l2 :: ls2) =
              l ++ '\n' :: joinLines (l2 :: ls2) := rfl
          rw [hj, splitOn_append_sep '\n' l _ (h l (List.mem_cons_self l _)),
            ih (by simp) (fun x hx => h x (List.mem_cons_of_mem l hx))]

/-- Stripping does nothing when the first character is not whitespace. -/
theorem stripLeft_eq_self {l : List Char} (h : pySpace l.headI = false) :
    stripLeft l = l := by
  cases l with
  | nil => rfl
  | cons c r =>
      have hc : pySpace c = false := h
      simp [stripLeft, hc]

/-- Stripping does nothing when neither end is whitespace. -/
theorem pstrip_eq_self {l : List Char} (h1 : pySpace l.headI = false)
    (h2 : pySpace l.reverse.headI = false) : pstrip l = l := by
  unfold pstrip
  rw [stripLeft_eq_self h2, List.reverse_reverse, stripLeft_eq_self h1]

set_option maxRecDepth 100000
set_option maxHeartbeats 1000000

/-- C6: the validator fails exactly when no sampled line contains a
semicolon or the conformity fraction among semicolon lines is below the
0.9 threshold; a 100 line sample with 85 semicolon lines of which 70 are
six field conforming fails, one with 95 of 100 conforming passes. -/
theorem C6_validator (raw : List Char) :
    (validate_raw_data raw 100 (9 / 10) = false ↔
      ((parseLines raw).take 100).filter (fun l => l.contains ';') = [] ∨
        (((((parseLines raw).take 100).filter (fun l => l.contains ';')).filter
            (fun l => decide ((splitOn ';' (pstrip l)).length = 6))).length : ℚ) /
          (((((parseLines raw).take 100).filter
            (fun l => l.contains ';'))).length : ℚ) < 9 / 10) ∧
    validate_raw_data exDriftRaw 100 (9 / 10) = false ∧
    validate_raw_data exCleanRaw 100 (9 / 10) = true := by
  have hnosepDrift : ∀ l ∈ exDriftLines, l.contains '\n' = false := by
    intro l hl
    unfold exDriftLines at hl
    rcases List.mem_append.mp hl with h12 | h3
    · rcases List.mem_append.mp h12 with h1 | h2
      · rw [List.eq_of_mem_replicate h1]; decide
      · rw [List.eq_of_mem_replicate h2]; decide
    · rw [List.eq_of_mem_replicate h3]; decide
  have hnosepClean : ∀ l ∈ exCleanLines, l.contains '\n' = false := by
    intro l hl
    unfold exCleanLines at hl
    rcases List.mem_append.mp hl with h1 | h2
    · rw [List.eq_of_mem_replicate h1]; decide
    · rw [List.eq_of_mem_replicate h2]; decide
  have hparseDrift : parseLines exDriftRaw = exDriftLines := by
    unfold parseLines
    rw [pstrip_eq_self (by decide) (by decide)]
    exact splitOn_joinLines exDriftLines (by simp [exDriftLines]) hnosepDrift
  have hparseClean : parseLines exCleanRaw = exCleanLines := by
    unfold parseLines
    rw [pstrip_eq_self (by decide) (by decide)]
    exact splitOn_joinLines exCleanLines (by simp [exCleanLines]) hnosepClean
  have hdrift : validate_raw_data exDriftRaw 100 (9 / 10) = false := by
    have hfc : exDriftLines.filter (fun l => l.contains ';') =
        List.replicate 70 exGood ++ List.replicate 15 exBad := by
      unfold exDriftLines
      rw [List.filter_append, List.filter_append,
        List.filter_replicate_of_pos (by decide),
        List.filter_replicate_of_pos (by decide),
        List.filter_replicate_of_neg (by decide), List.append_nil]
    have hvc : exDriftLines.filter (fun l =>
        l.contains ';' && decide ((splitOn ';' (pstrip l)).length = 6)) =
        List.replicate 70 exGood := by
      unfold exDriftLines
      rw [List.filter_append, List.filter_append,
        List.filter_replicate_of_pos (by decide),
        List.filter_replicate_of_neg (by decide),
        List.filter_replicate_of_neg (by decide),
        List.append_nil, List.append_nil]
    simp only [validate_raw_data]
    rw [hparseDrift, List.take_of_length_le (by simp [exDriftLines])]
    rw [hfc, hvc, show exDriftLines.isEmpty = false from by decide]
    simp only [List.length_append, List.length_replicate]
    norm_num
  have hclean : validate_raw_data exCleanRaw 100 (9 / 10) = true := by
    have hfc : exCleanLines.filter (fun l => l.contains ';') =
        List.replicate 95 exGood ++ List.replicate 5 exBad := by
      unfold exCleanLines
      rw [List.filter_append,
        List.filter_replicate_of_pos (by decide),
        List.filter_replicate_of_pos (by decide)]
    have hvc : exCleanLines.filter (fun l =>
        l.contains ';' && decide ((splitOn ';' (pstrip l)).length = 6)) =
        List.replicate 95 exGood := by
      unfold exCleanLines
      rw [List.filter_append,
        List.filter_replicate_of_pos (by decide),
        List.filter_replicate_of_neg (by decide),
        List.append_nil]
    simp only [validate_raw_data]
    rw [hparseClean, List.take_of_length_le (by simp [exCleanLines])]
    rw [hfc, hvc, show exCleanLines.isEmpty = false from by decide]
    simp only [List.length_append, List.length_replicate]
    norm_num
  refine ⟨?_, hdrift, hclean⟩
  simp only [validate_raw_data]
  have hs : ((parseLines raw).take 100).isEmpty = false := by
    rw [List.isEmpty_eq_false]
    intro hc
    rcases List.take_eq_nil_iff.mp hc with h | h
    · exact absurd h (by decide)
    · exact parseLines_ne_nil raw h
  rw [hs]
  have hvalid : ((parseLines raw).take 100).filter
      (fun l => l.contains ';' && decide ((splitOn ';' (pstrip l)).length = 6)) =
      (((parseLines raw).take 100).filter (fun l => l.contains ';')).filter
        (fun l => decide ((splitOn ';' (pstrip l)).length = 6)) := by
    rw [List.filter_filter]
    exact List.filter_congr (fun a _ => Bool.and_comm _ _)
  rw [hvalid]
  by_cases hc : ((parseLines raw).take 100).filter (fun l => l.contains ';') = []
  · rw [hc]
    simp
  · have hlen : ¬((((parseLines raw).take 100).filter
        (fun l => l.contains ';')).length = 0) := by
      simpa [List.length_eq_zero] using hc
    rw [if_neg hlen]
    by_cases hscore : (((((parseLines raw).take 100).filter
        (fun l => l.contains ';')).filter
          (fun l => decide ((splitOn ';' (pstrip l)).length = 6))).length : ℚ) /
        (((((parseLines raw).take 100).filter
          (fun l => l.contains ';'))).length : ℚ) < 9 / 10
    · rw [if_pos (decide_eq_true hscore)]
      exact iff_of_true rfl (Or.inr hscore)
    · rw [if_neg (fun hd => hscore (of_decide_eq_true hd))]
      apply iff_of_false
      · exact fun hc2 => Bool.noConfusion hc2
      · rintro (h1 | h2)
        · exact hc h1
        · exact hscore h2

/-- Unfolding equation of the row coercion on a literal record. -/
theorem coerceRow_mk (f0 f3 f4 f5 : List Char) :
    coerceRow ⟨f0, f3, f4, f5⟩ =
      (match to_numeric f0, to_numeric f4, to_datetime f5 with
       | some c, some v, some d => some (c, f3, v, d)
       | _, _, _ => none) := rfl

/-- C5 amended: parsing is total and per line: every line of the raw text
contributes exactly the record of the single line contract lineRecord
(one record when the line has a semicolon, six fields and clean numeric,
positive nav and calendar date coercions; no record otherwise), and the
output is their concatenation in line order. -/
theorem C5_parser_per_line (raw : List Char) :
    process_data raw = (parseLines raw).filterMap lineRecord := by
  unfold process_data rawRecords
  rw [List.filterMap_filterMap, List.map_filterMap, List.filter_filterMap]
  congr 1
  funext line
  unfold lineRecord
  by_cases hcont : line.contains ';' = true
  · rw [if_pos hcont, if_pos hcont]
    by_cases hlen : (splitOn ';' (pstrip line)).length = 6
    · rw [if_pos hlen, if_pos hlen]
      rw [show ((some (RawRecord.mk ((splitOn ';' (pstrip line)).getD 0 [])
        ((splitOn ';' (pstrip line)).getD 3 [])
        ((splitOn ';' (pstrip line)).getD 4 [])
        ((splitOn ';' (pstrip line)).getD 5 []))).bind coerceRow) =
          coerceRow (RawRecord.mk ((splitOn ';' (pstrip line)).getD 0 [])
            ((splitOn ';' (pstrip line)).getD 3 [])
            ((splitOn ';' (pstrip line)).getD 4 [])
            ((splitOn ';' (pstrip line)).getD 5 [])) from rfl]
      rw [coerceRow_mk]
      cases h0 : to_numeric ((splitOn ';' (pstrip line)).getD 0 []) with
      | none => rfl
      | some c =>
          cases h4 : to_numeric ((splitOn ';' (pstrip line)).getD 4 []) with
          | none => rfl
          | some v =>
              cases h5 : to_datetime ((splitOn ';' (pstrip line)).getD 5 []) with
              | none => rfl
              | some d =>
                  by_cases hv : 0 < v
                  · simp [Option.filter_some, hv]
                  · simp [Option.filter_some, hv]
    · rw [if_neg hlen, if_neg hlen]
      rfl
  · rw [if_neg hcont, if_neg hcont]
    rfl

/-- C5 counterexample: the field 2.5 does not coerce to an integer (it is
not an integer literal), yet the line carrying it as scheme_code yields
one clean record, with the numeric value truncated to the integer 2; the
claim as stated predicts zero records for this line. -/
theorem C5_int_coercion_counterexample :
    spec_int_coercible (("2.5").data) = false ∧
      (splitOn ';' (pstrip (("2.5;I1;I2;Fund A;10.5;01-Jan-2024").data))).getD 0 []
        = ("2.5").data ∧
      process_data (("2.5;I1;I2;Fund A;10.5;01-Jan-2024").data) =
        [NavRecord.mk 2 (("Fund A").data) (mkRat 21 2) (Date.mk 2024 1 1)] := by
  refine ⟨by decide, by decide, by decide⟩

/-- Strict date order implies the weak one used by the insertion sort. -/
theorem Date.ltb_leb {a b : Date} (h : Date.ltb a b = true) :
    Date.leb a b = true := by
  simp only [Date.ltb, Bool.or_eq_true, Bool.and_eq_true,
    decide_eq_true_eq] at h
  simp only [Date.leb, Bool.or_eq_true, Bool.and_eq_true,
    decide_eq_true_eq]
  omega

/-- Sorting a series already strictly sorted by date returns it
unchanged. -/
theorem sortByDate_eq_self : ∀ {l : List (Date × ℚ)},
    sortedByDate l = true → sortByDate l = l := by
  intro l h
  induction l with
  | nil => rfl
  | cons x r ih =>
      cases r with
      | nil => rfl
      | cons y r2 =>
          rw [show sortedByDate (x :: y :: r2) =
              (Date.ltb x.1 y.1 && sortedByDate (y :: r2)) from rfl,
            Bool.and_eq_true] at h
          rcases h with ⟨hxy, htail⟩
          have hr : sortByDate (y :: r2) = y :: r2 := ih htail
          show insertByDate x (sortByDate (y :: r2)) = x :: y :: r2
          rw [hr]
          unfold insertByDate
          rw [if_pos (Date.ltb_leb hxy)]

/-- C2: on a nonempty series strictly sorted ascending by date, the
trailing return dictionary holds, for each of the four periods, the
latest observation dated at or before the latest date minus the period
offset; a missing observation or a past nav at most zero yields the NaN
marker, and otherwise the value is exactly (latest nav / past nav) to the
power 12 / months, minus one. -/
theorem C2_trailing_returns (l : List (Date × ℚ)) (latest : Date × ℚ)
    (hlast : l.getLast? = some latest)
    (hsort : sortedByDate l = true) :
    calculate_returns_robust l = periods.map (fun p =>
      (p.1,
        match (l.filter
            (fun x => Date.leb x.1 (subMonths latest.1 p.2))).getLast? with
        | none => none
        | some past =>
          if past.2 ≤ 0 then none
          else some (((latest.2 / past.2 : ℚ) : ℝ) ^
            (((12 : ℚ) / (p.2 : ℚ) : ℚ) : ℝ) - 1))) := by
  unfold calculate_returns_robust
  rw [sortByDate_eq_self hsort, hlast]
  show List.map _ periods = List.map _ periods
  apply List.map_congr_left
  intro p _
  cases hpast : (l.filter
      (fun x => Date.leb x.1 (subMonths latest.1 p.2))).getLast? with
  | none => rfl
  | some past =>
      by_cases hp : past.2 ≤ 0
      · simp only [if_pos hp]
      · simp only [if_neg hp]
        rw [show (1 + (latest.2 / past.2 - 1) : ℚ) = (latest.2 / past.2 : ℚ)
            from by ring,
          show ((1 : ℚ) / ((p.2 : ℚ) / 12)) = ((12 : ℚ) / (p.2 : ℚ))
            from one_div_div _ _]

/-- Witness for C2 at a concrete four point series spanning four years. -/
theorem C2_trailing_returns_witness :
    calculate_returns_robust
        [((Date.mk 2020 1 1), (10 : ℚ)), ((Date.mk 2021 1 1), 11),
          ((Date.mk 2023 6 1), 12), ((Date.mk 2024 1 1), 14)] =
      periods.map (fun p =>
        (p.1,
          match ([((Date.mk 2020 1 1), (10 : ℚ)), ((Date.mk 2021 1 1), 11),
              ((Date.mk 2023 6 1), 12), ((Date.mk 2024 1 1), 14)].filter
              (fun x => Date.leb x.1
                (subMonths ((Date.mk 2024 1 1), (14 : ℚ)).1 p.2))).getLast? with
          | none => none
          | some past =>
            if past.2 ≤ 0 then none
            else some (((((Date.mk 2024 1 1), (14 : ℚ)).2 / past.2 : ℚ) : ℝ) ^
              (((12 : ℚ) / (p.2 : ℚ) : ℚ) : ℝ) - 1))) :=
  C2_trailing_returns _ ((Date.mk 2024 1 1), 14) (by decide) (by decide)

/-- Dropping the NaN marker from the running percentage change gives the
pairwise ratios with the previous value. -/
theorem dropna_pctAux (prev : ℚ) (l : List ℚ) :
    dropna (pctAux prev l) =
      List.zipWith (fun a b => b / a - 1) (prev :: l) l := by
  induction l generalizing prev with
  | nil => rfl
  | cons y r ih =>
      show dropna (some (y / prev - 1) :: pctAux y r) = _
      rw [show dropna (some (y / prev - 1) :: pctAux y r) =
          (y / prev - 1) :: dropna (pctAux y r) from rfl, ih y]
      rfl

/-- The cleaned daily returns are exactly the consecutive ratios minus
one. -/
theorem dropna_pct_change (l : List ℚ) :
    dropna (pct_change l) = List.zipWith (fun a b => b / a - 1) l l.tail := by
  cases l with
  | nil => rfl
  | cons x r =>
      show dropna (none :: pctAux x r) = _
      rw [show dropna (none :: pctAux x r) = dropna (pctAux x r) from rfl,
        dropna_pctAux]
      rfl

/-- A series of n observations yields n minus one daily returns. -/
theorem length_zipWith_tail (l : List ℚ) :
    (List.zipWith (fun a b => b / a - 1) l l.tail).length = l.length - 1 := by
  rw [List.length_zipWith]
  cases l with
  | nil => rfl
  | cons x r => simp [Nat.min_def]

/-- Subtracting a constant from every element shifts the sum by the
length times the constant. -/
theorem sum_map_sub_const (l : List ℚ) (c : ℚ) :
    (l.map (fun x => x - c)).sum = l.sum - (l.length : ℚ) * c := by
  induction l with
  | nil => simp
  | cons x r ih =>
      simp only [List.map_cons, List.sum_cons, ih, List.length_cons]
      push_cast
      ring

/-- Subtracting a constant from every element shifts the mean by the
constant: the mean excess return is the mean return minus the daily risk
free rate. -/
theorem listMean_map_sub_const (l : List ℚ) (c : ℚ) (h : l ≠ []) :
    listMean (l.map (fun x => x - c)) = listMean l - c := by
  have hn : (l.length : ℚ) ≠ 0 := by
    rw [Nat.cast_ne_zero]
    exact fun h0 => h (List.length_eq_zero.mp h0)
  unfold listMean
  rw [List.length_map, sum_map_sub_const, sub_div, mul_comm, mul_div_assoc,
    div_self hn, mul_one]

/-- The sample variance is nonnegative whenever it is well defined. -/
theorem sampleVar_nonneg (l : List ℚ) (h : 2 ≤ l.length) :
    0 ≤ sampleVar l := by
  unfold sampleVar
  apply div_nonneg
  · apply List.sum_nonneg
    intro x hx
    rcases List.mem_map.mp hx with ⟨y, _, rfl⟩
    exact sq_nonneg _
  · have h2 : (2 : ℚ) ≤ (l.length : ℚ) := by exact_mod_cast h
    linarith

/-- C3: the Sharpe computation returns the NaN marker on fewer than 252
observations; with enough observations and zero variance of the daily
returns it returns exactly zero; otherwise it returns the mean of the
daily returns minus the daily risk free rate, divided by their standard
deviation, scaled by the square root of 252.  The function is total: it
never fails on any input. -/
theorem C3_sharpe_ratio (navs : List ℚ) :
    (navs.length < 252 → calculate_sharpe_ratio navs = none) ∧
    (252 ≤ navs.length →
      sampleVar (List.zipWith (fun a b => b / a - 1) navs navs.tail) = 0 →
      calculate_sharpe_ratio navs = some 0) ∧
    (252 ≤ navs.length →
      sampleVar (List.zipWith (fun a b => b / a - 1) navs navs.tail) ≠ 0 →
      calculate_sharpe_ratio navs = some
        (((listMean (List.zipWith (fun a b => b / a - 1) navs navs.tail) -
            RISK_FREE_RATE / 252 : ℚ) : ℝ) /
          Real.sqrt ((sampleVar (List.zipWith (fun a b => b / a - 1)
            navs navs.tail) : ℚ) : ℝ) * Real.sqrt 252)) := by
  refine ⟨fun h => ?_, fun hge hv => ?_, fun hge hv => ?_⟩
  · unfold calculate_sharpe_ratio
    rw [if_pos h]
  · unfold calculate_sharpe_ratio
    rw [if_neg (not_lt.mpr hge), dropna_pct_change, hv]
    rw [if_pos (by norm_num)]
  · unfold calculate_sharpe_ratio
    rw [if_neg (not_lt.mpr hge), dropna_pct_change]
    have hlen : 2 ≤
        (List.zipWith (fun a b => b / a - 1) navs navs.tail).length := by
      rw [length_zipWith_tail]
      omega
    have hnn : 0 ≤
        sampleVar (List.zipWith (fun a b => b / a - 1) navs navs.tail) :=
      sampleVar_nonneg _ hlen
    have hsq : Real.sqrt ((sampleVar (List.zipWith (fun a b => b / a - 1)
        navs navs.tail) : ℚ) : ℝ) ≠ 0 := by
      intro h0
      rw [Real.sqrt_eq_zero'] at h0
      have hle : sampleVar (List.zipWith (fun a b => b / a - 1)
          navs navs.tail) ≤ 0 := by exact_mod_cast h0
      exact hv (le_antisymm hle hnn)
    rw [if_neg hsq]
    have hne : List.zipWith (fun a b => b / a - 1) navs navs.tail ≠ [] := by
      intro h0
      have hl := congrArg List.length h0
      rw [length_zipWith_tail] at hl
      simp only [List.length_nil] at hl
      omega
    rw [listMean_map_sub_const _ _ hne]

/-- Zipping two constant runs of the same value off by one produces a
constant run of the diagonal value. -/
theorem zipWith_replicate_self (f : ℚ → ℚ → ℚ) (a : ℚ) :
    ∀ n, List.zipWith f (List.replicate (n + 1) a) (List.replicate n a) =
      List.replicate n (f a a)
  | 0 => rfl
  | n + 1 => by
      show f a a :: List.zipWith f (List.replicate (n + 1) a)
          (List.replicate n a) = _
      rw [zipWith_replicate_self f a n]
      rfl

/-- Witness for C3 at three concrete series: a short one, a constant one
of 252 points and a nonconstant one of 252 points. -/
theorem C3_sharpe_ratio_witness :
    calculate_sharpe_ratio [(1 : ℚ), 2, 3] = none ∧
    calculate_sharpe_ratio (List.replicate 252 (1 : ℚ)) = some 0 ∧
    calculate_sharpe_ratio ((1 : ℚ) :: 2 :: List.replicate 250 (2 : ℚ)) =
      some (((listMean (List.zipWith (fun a b => b / a - 1)
            ((1 : ℚ) :: 2 :: List.replicate 250 (2 : ℚ))
            ((1 : ℚ) :: 2 :: List.replicate 250 (2 : ℚ)).tail) -
          RISK_FREE_RATE / 252 : ℚ) : ℝ) /
        Real.sqrt ((sampleVar (List.zipWith (fun a b => b / a - 1)
            ((1 : ℚ) :: 2 :: List.replicate 250 (2 : ℚ))
            ((1 : ℚ) :: 2 :: List.replicate 250 (2 : ℚ)).tail) : ℚ) : ℝ) *
        Real.sqrt 252) := by
  have hconst : List.zipWith (fun a b => b / a - 1)
      (List.replicate 252 (1 : ℚ)) (List.replicate 252 (1 : ℚ)).tail =
      List.replicate 251 (0 : ℚ) := by
    rw [show (List.replicate 252 (1 : ℚ)).tail =
        List.replicate 251 (1 : ℚ) from rfl,
      show List.replicate 252 (1 : ℚ) =
        List.replicate (251 + 1) (1 : ℚ) from rfl,
      zipWith_replicate_self]
    norm_num
  have hvarconst : sampleVar (List.replicate 251 (0 : ℚ)) = 0 := by
    have hm : listMean (List.replicate 251 (0 : ℚ)) = 0 := by
      unfold listMean
      rw [List.sum_replicate, smul_zero, zero_div]
    unfold sampleVar
    rw [hm, List.map_replicate, List.sum_replicate,
      show ((0 : ℚ) - 0) ^ 2 = 0 from by norm_num, smul_zero, zero_div]
  have hdaily : List.zipWith (fun a b => b / a - 1)
      ((1 : ℚ) :: 2 :: List.replicate 250 (2 : ℚ))
      ((1 : ℚ) :: 2 :: List.replicate 250 (2 : ℚ)).tail =
      (1 : ℚ) :: List.replicate 250 (0 : ℚ) := by
    show ((2 : ℚ) / 1 - 1) :: List.zipWith (fun a b => b / a - 1)
        ((2 : ℚ) :: List.replicate 250 (2 : ℚ))
        (List.replicate 250 (2 : ℚ)) = _
    rw [show (2 : ℚ) :: List.replicate 250 (2 : ℚ) =
        List.replicate (250 + 1) (2 : ℚ) from rfl,
      zipWith_replicate_self]
    norm_num
  have hmean : listMean ((1 : ℚ) :: List.replicate 250 (0 : ℚ)) = 1 / 251 := by
    unfold listMean
    rw [List.sum_cons, List.sum_replicate, List.length_cons,
      List.length_replicate]
    norm_num
  have hvar : sampleVar ((1 : ℚ) :: List.replicate 250 (0 : ℚ)) = 1 / 251 := by
    unfold sampleVar
    rw [hmean, List.map_cons, List.map_replicate, List.sum_cons,
      List.sum_replicate, List.length_cons, List.length_replicate]
    rw [show (250 : ℕ) • (((0 : ℚ) - 1 / 251) ^ 2) =
        (250 : ℚ) * ((0 - 1 / 251) ^ 2) from by
      rw [nsmul_eq_mul]; norm_num]
    norm_num
  refine ⟨(C3_sharpe_ratio [(1 : ℚ), 2, 3]).1 (by decide),
    (C3_sharpe_ratio (List.replicate 252 (1 : ℚ))).2.1 (by decide)
      (by rw [hconst, hvarconst]),
    (C3_sharpe_ratio ((1 : ℚ) :: 2 :: List.replicate 250 (2 : ℚ))).2.2
      (by decide) (by rw [hdaily, hvar]; norm_num)⟩

/-- The performance component stays within its bucket range. -/
theorem perf_score_bounds (rets : List (String × Option ℝ)) :
    0 ≤ perf_score rets ∧ perf_score rets ≤ 50 := by
  unfold perf_score
  split_ifs <;> norm_num

/-- The risk adjusted component stays within its bucket range. -/
theorem risk_score_bounds (sharpe : Option ℝ) :
    0 ≤ risk_score sharpe ∧ risk_score sharpe ≤ 50 := by
  cases sharpe with
  | none =>
      rw [show risk_score none = 0 from rfl]
      norm_num
  | some v =>
      rw [show risk_score (some v) =
          (if v > 1 then 50 else if v > (75 : ℝ) / 100 then 35
           else if v > (5 : ℝ) / 10 then 20 else 0) from rfl]
      split_ifs <;> norm_num

/-- C4: the scorecard awards exactly the spec buckets: the performance
component reads the one and three year returns through the dictionary
(a missing key or a stored NaN marker contributes zero), the risk
component reads the Sharpe buckets with an undefined Sharpe contributing
zero, the final score is the sum of both components and always lies
within 0 and 100. -/
theorem C4_scorecard (rets : List (String × Option ℝ)) (sharpe : Option ℝ) :
    perf_score rets = spec_perf_bucket ((lookupStr rets ("1 Year")).join)
        ((lookupStr rets ("3 Years")).join) ∧
    risk_score sharpe = spec_risk_bucket sharpe ∧
    final_score rets sharpe = perf_score rets + risk_score sharpe ∧
    0 ≤ final_score rets sharpe ∧ final_score rets sharpe ≤ 100 := by
  refine ⟨?_, ?_, rfl, ?_, ?_⟩
  · unfold perf_score spec_perf_bucket dict_get_gt
    rcases h1 : lookupStr rets ("1 Year") with _ | (_ | v1) <;>
      rcases h3 : lookupStr rets ("3 Years") with _ | (_ | v3) <;>
        simp only [Option.join, decide_eq_true_eq] <;> norm_num
  · unfold risk_score spec_risk_bucket
    cases sharpe <;> rfl
  · have h1 := perf_score_bounds rets
    have h2 := risk_score_bounds sharpe
    unfold final_score
    omega
  · have h1 := perf_score_bounds rets
    have h2 := risk_score_bounds sharpe
    unfold final_score
    omega

/-- Length is preserved by the date insertion. -/
theorem length_insertByDate (x : Date × ℚ) :
    ∀ (l : List (Date × ℚ)), (insertByDate x l).length = l.length + 1
  | [] => rfl
  | y :: r => by
      unfold insertByDate
      split
      · rfl
      · simp only [List.length_cons, length_insertByDate x r]

/-- Sorting preserves the length of the series. -/
theorem length_sortByDate (l : List (Date × ℚ)) :
    (sortByDate l).length = l.length := by
  induction l with
  | nil => rfl
  | cons x r ih =>
      show (insertByDate x (sortByDate r)).length = r.length + 1
      rw [length_insertByDate, ih]

/-- C10: an empty series yields the empty dictionary, with no period
keys at all; a nonempty series yields a dictionary whose key list is
exactly the four period names; and the scoring reads missing keys with
the default zero, so an empty dictionary contributes zero to the
performance component. -/
theorem C10_returns_dict_keys (s : List (Date × ℚ)) :
    (s = [] → calculate_returns_robust s = []) ∧
    (s ≠ [] → (calculate_returns_robust s).map Prod.fst =
      [("1 Month" : String), ("6 Months" : String), ("1 Year" : String),
        ("3 Years" : String)]) ∧
    lookupStr ([] : List (String × Option ℝ)) ("1 Year") = none ∧
    perf_score ([] : List (String × Option ℝ)) = 0 := by
  refine ⟨fun h => by rw [h]; rfl, fun h => ?_, rfl, ?_⟩
  · have hne : sortByDate s ≠ [] := by
      intro h0
      have := congrArg List.length h0
      rw [length_sortByDate] at this
      exact h (List.length_eq_zero.mp this)
    unfold calculate_returns_robust
    rw [List.getLast?_eq_getLast_of_ne_nil hne]
    show (List.map _ (List.map _ periods)) = _
    rw [List.map_map]
    rw [List.map_congr_left (g := fun p : String × ℕ => p.1) ?_]
    · rfl
    · intro p _
      simp only [Function.comp_apply]
      split
      · rfl
      · split <;> rfl
  · unfold perf_score dict_get_gt lookupStr
    norm_num

/-- Witness for C10 at the empty series and a one point series. -/
theorem C10_returns_dict_keys_witness :
    calculate_returns_robust [] = [] ∧
    (calculate_returns_robust [((Date.mk 2024 1 1), (10 : ℚ))]).map Prod.fst =
      [("1 Month" : String), ("6 Months" : String), ("1 Year" : String),
        ("3 Years" : String)] :=
  ⟨(C10_returns_dict_keys []).1 rfl,
    (C10_returns_dict_keys [((Date.mk 2024 1 1), (10 : ℚ))]).2.1 (by decide)⟩

end MFund
